import Mathlib

/-!
Verification of the pcangsd numerical core against its specification.

This file gives a shallow embedding, in Lean 4, of the parts of the
repository (admixture.py, covariance.py, callGeno.py, helpFunctions.py)
that the specification claims talk about, and settles each claim.

Modelling conventions:
* Python/NumPy double arithmetic is modelled by the exact rationals `ℚ`
  (a square root appearing at the very end of an RMSE computation is
  modelled by `Real.sqrt` applied to the cast of the rational sum).
* Matrices are total functions `Fin m → Fin n → ℚ` (or `ℕ → ℕ → ℚ` when
  the source indexes with raw offsets such as `3*ind + g`).
* A float division whose divisor is zero produces a non-finite value in
  the source; where a claim is about exactly that, the embedded
  computation returns an `Option` that is `none` on a zero divisor.
* The sources run under Python 2 (the numba-jitted kernels iterate with
  `range(S, min(S+N, m))` after `m /= 3`, which requires integer `m`),
  so `m /= 3` on an integer is floor division.
-/

namespace PCAngsd

/-- Clipping applied after every multiplicative update in admixture.py
(`max(x, 1e-4)` followed by `min(x, 1-1e-4)`, lines 50-51 and 59-60)
and after the intercept step in covariance.py (lines 154-155). -/
def clipQF (x : ℚ) : ℚ := min (max x 1e-4) (1 - 1e-4)

/-- Embedding of `updateF` (admixture.py lines 44-51): the entry-wise
multiplicative update `F[s,k] *= A[s,k]/FB[s,k]` followed by clipping. -/
def updateF {n K : ℕ} (F A FB : Fin n → Fin K → ℚ) : Fin n → Fin K → ℚ :=
  fun s k => clipQF (F s k * (A s k / FB s k))

/-- Embedding of `updateQ` (admixture.py lines 53-60): the entry-wise
multiplicative update `Q[i,k] *= A[i,k]/(QB[i,k] + alpha)` followed by
clipping. -/
def updateQ {m K : ℕ} (Q A QB : Fin m → Fin K → ℚ) (alpha : ℚ) :
    Fin m → Fin K → ℚ :=
  fun i k => clipQF (Q i k * (A i k / (QB i k + alpha)))

/-- Embedding of the row renormalization `Q /= np.sum(Q, axis=1,
keepdims=True)` performed after every `updateQ` call (admixture.py
lines 116 and 158). -/
def normalizeRows {m K : ℕ} (Q : Fin m → Fin K → ℚ) : Fin m → Fin K → ℚ :=
  fun i k => Q i k / ∑ j, Q i j

/-- One complete Q update step of the NMF engine: `updateQ` immediately
followed by row renormalization, exactly as performed at admixture.py
lines 115-116 (and 157-158). -/
def qUpdateStep {m K : ℕ} (Q A QB : Fin m → Fin K → ℚ) (alpha : ℚ) :
    Fin m → Fin K → ℚ :=
  normalizeRows (updateQ Q A QB alpha)

/-- Embedding of `addIntercept` (covariance.py lines 147-155): each entry
of the SVD reconstruction gets `2*f[s]` added, is halved, and is clipped
to the interval used everywhere else. -/
def addIntercept {m n : ℕ} (indF : Fin m → Fin n → ℚ) (f : Fin n → ℚ) :
    Fin m → Fin n → ℚ :=
  fun i s => clipQF ((indF i s + 2 * f s) / 2)

lemma clipQF_mem (x : ℚ) : 1e-4 ≤ clipQF x ∧ clipQF x ≤ 1 - 1e-4 := by
  unfold clipQF
  constructor
  · have h1 : (1e-4 : ℚ) ≤ max x 1e-4 := le_max_right x 1e-4
    have h2 : (1e-4 : ℚ) ≤ 1 - 1e-4 := by norm_num
    exact le_min h1 h2
  · exact min_le_right _ _

lemma clipQF_pos (x : ℚ) : 0 < clipQF x :=
  lt_of_lt_of_le (by norm_num) (clipQF_mem x).1

/-- C2: every entry of `F` after an `updateF` call, and every entry of
`indF` after the intercept/clipping step of `estimateF`, lies in the
closed interval `[1e-4, 1 - 1e-4]`; in particular it is never exactly 0
nor exactly 1. -/
theorem updateF_addIntercept_clipped {n K m : ℕ}
    (F A FB : Fin n → Fin K → ℚ) (indF : Fin m → Fin n → ℚ)
    (f : Fin n → ℚ) (s : Fin n) (k : Fin K) (i : Fin m) :
    (1e-4 ≤ updateF F A FB s k ∧ updateF F A FB s k ≤ 1 - 1e-4 ∧
      updateF F A FB s k ≠ 0 ∧ updateF F A FB s k ≠ 1) ∧
    (1e-4 ≤ addIntercept indF f i s ∧ addIntercept indF f i s ≤ 1 - 1e-4 ∧
      addIntercept indF f i s ≠ 0 ∧ addIntercept indF f i s ≠ 1) := by
  have h1 := clipQF_mem (F s k * (A s k / FB s k))
  have h2 := clipQF_mem ((indF i s + 2 * f s) / 2)
  refine ⟨⟨h1.1, h1.2, ?_, ?_⟩, ⟨h2.1, h2.2, ?_, ?_⟩⟩
  · intro h
    rw [updateF] at h
    have := h1.1
    rw [h] at this
    norm_num at this
  · intro h
    rw [updateF] at h
    have := h1.2
    rw [h] at this
    norm_num at this
  · intro h
    rw [addIntercept] at h
    have := h2.1
    rw [h] at this
    norm_num at this
  · intro h
    rw [addIntercept] at h
    have := h2.2
    rw [h] at this
    norm_num at this

/-- C1 counterexample: with K = 1 (a valid input per the claim: m = 1,
K = 1, non-negative numerator and denominator, alpha = 0) the row
renormalization after `updateQ` makes the single entry of every row
exactly 1, which is not in the open interval (0,1). -/
theorem qUpdateStep_entry_one_when_K1 :
    qUpdateStep (m := 1) (K := 1) (fun _ _ => 1/2) (fun _ _ => 1)
        (fun _ _ => 1) 0 0 0 = 1 ∧
    ¬ (qUpdateStep (m := 1) (K := 1) (fun _ _ => 1/2) (fun _ _ => 1)
        (fun _ _ => 1) 0 0 0 < 1) := by
  have h : qUpdateStep (m := 1) (K := 1) (fun _ _ => 1/2) (fun _ _ => 1)
      (fun _ _ => 1) 0 0 0 = 1 := by
    simp [qUpdateStep, normalizeRows, updateQ, clipQF]
    norm_num
  exact ⟨h, by rw [h]; exact lt_irrefl 1⟩

/-- C1 (amended): after every Q update step (multiplicative update
followed by row renormalization) each row of Q sums exactly to 1 (hence
within the 1e-9 tolerance), for every K ≥ 1; and when K ≥ 2 every entry
of Q lies in the open interval (0,1).  (For K = 1 each entry equals
exactly 1, as the counterexample shows.) -/
theorem qUpdateStep_simplex {m K : ℕ} (hK : 1 ≤ K)
    (Q A QB : Fin m → Fin K → ℚ) (alpha : ℚ) :
    (∀ i : Fin m, ∑ k, qUpdateStep Q A QB alpha i k = 1) ∧
    (2 ≤ K → ∀ (i : Fin m) (k : Fin K),
      0 < qUpdateStep Q A QB alpha i k ∧ qUpdateStep Q A QB alpha i k < 1) := by
  set U := updateQ Q A QB alpha with hU
  have hUpos : ∀ (i : Fin m) (k : Fin K), 0 < U i k := fun i k => clipQF_pos _
  have hsum_pos : ∀ i : Fin m, 0 < ∑ j, U i j := by
    intro i
    have hne : (Finset.univ : Finset (Fin K)).Nonempty := by
      have : Nonempty (Fin K) := ⟨⟨0, hK⟩⟩
      exact Finset.univ_nonempty
    exact Finset.sum_pos (fun j _ => hUpos i j) hne
  constructor
  · intro i
    have : ∑ k, U i k / (∑ j, U i j) = (∑ k, U i k) / (∑ j, U i j) := by
      rw [Finset.sum_div]
    calc ∑ k, qUpdateStep Q A QB alpha i k
        = (∑ k, U i k) / (∑ j, U i j) := by
          simp only [qUpdateStep, normalizeRows, ← hU]
          rw [Finset.sum_div]
      _ = 1 := div_self (ne_of_gt (hsum_pos i))
  · intro hK2 i k
    have hlt : U i k < ∑ j, U i j := by
      obtain ⟨k2, hk2⟩ : ∃ k2 : Fin K, k2 ≠ k := by
        have : Nontrivial (Fin K) := Fin.nontrivial_iff_two_le.mpr hK2
        exact exists_ne k
      have hk2mem : k2 ∈ Finset.univ.erase k := by
        simp [Finset.mem_erase, hk2]
      have herase : U i k2 ≤ ∑ j ∈ Finset.univ.erase k, U i j :=
        Finset.single_le_sum (fun j _ => le_of_lt (hUpos i j)) hk2mem
      have hsplit : ∑ j, U i j = U i k + ∑ j ∈ Finset.univ.erase k, U i j :=
        (Finset.add_sum_erase Finset.univ (U i) (Finset.mem_univ k)).symm
      have : 0 < ∑ j ∈ Finset.univ.erase k, U i j :=
        lt_of_lt_of_le (hUpos i k2) herase
      linarith
    constructor
    · exact div_pos (hUpos i k) (hsum_pos i)
    · rw [qUpdateStep, normalizeRows]
      exact (div_lt_one (hsum_pos i)).mpr hlt

/-- Witness for the amended C1 at a concrete input with m = 1, K = 2. -/
theorem qUpdateStep_simplex_witness :
    (∀ i : Fin 1, ∑ k, qUpdateStep (m := 1) (K := 2) (fun _ _ => 1/2)
        (fun _ _ => 1) (fun _ _ => 1) 0 i k = 1) ∧
    (∀ (i : Fin 1) (k : Fin 2),
      0 < qUpdateStep (m := 1) (K := 2) (fun _ _ => 1/2) (fun _ _ => 1)
          (fun _ _ => 1) 0 i k ∧
      qUpdateStep (m := 1) (K := 2) (fun _ _ => 1/2) (fun _ _ => 1)
          (fun _ _ => 1) 0 i k < 1) := by
  have h := qUpdateStep_simplex (m := 1) (K := 2) (by decide)
    (fun _ _ => 1/2) (fun _ _ => 1) (fun _ _ => 1) 0
  exact ⟨h.1, h.2 (by decide)⟩

/-- Embedding of `chunk_N = int(np.ceil(float(m)/threads))` (the chunk
size used by every multithreaded call site, e.g. helpFunctions.py is
called with admixture.py line 79 / covariance.py line 187):
`ceil(m/t) = (m + t - 1) / t` in natural-number arithmetic. -/
def chunkN (m t : ℕ) : ℕ := (m + t - 1) / t

/-- Per-row sum of squared differences, the quantity accumulated into
`V[i]` by `rmse2d_inner` / `rmse2d_inner_float32` (helpFunctions.py
lines 24-29 and 44-49). -/
def rowSS (A B : ℕ → ℕ → ℚ) (n i : ℕ) : ℚ :=
  ∑ j ∈ Finset.range n, (A i j - B i j) * (A i j - B i j)

/-- Total contribution of one worker chunk: `rmse2d_inner` iterates rows
`range(S, min(S+N, m))` and writes only those entries of the shared
vector, so the chunk contributes the sum of their row sums. -/
def chunkSS (A B : ℕ → ℕ → ℚ) (m n S N : ℕ) : ℚ :=
  ∑ i ∈ Finset.Ico S (min (S + N) m), rowSS A B n i

/-- Pre-square-root value computed by `rmse2d_multi` (and its float32
twin, helpFunctions.py lines 31-42 and 51-62): the chunk starts are
`0, c, 2c, ...` for `c = chunkN m t`, each chunk accumulates into
disjoint rows of `sumA`, and `np.sum(sumA)` adds the chunks up. -/
def multiSS (A B : ℕ → ℕ → ℚ) (m n t : ℕ) : ℚ :=
  ∑ c ∈ Finset.range t, chunkSS A B m n (c * chunkN m t) (chunkN m t)

/-- Pre-square-root value of the single-threaded `rmse2d`
(helpFunctions.py lines 65-72): the plain double sum over all rows. -/
def totalSS (A B : ℕ → ℕ → ℚ) (m n : ℕ) : ℚ :=
  ∑ i ∈ Finset.range m, rowSS A B n i

lemma chunk_partition (f : ℕ → ℚ) (c m : ℕ) (t : ℕ) :
    ∑ j ∈ Finset.range t, (∑ i ∈ Finset.Ico (j * c) (min (j * c + c) m), f i)
      = ∑ i ∈ Finset.Ico 0 (min (t * c) m) , f i := by
  induction t with
  | zero => simp
  | succ t ih =>
    rw [Finset.sum_range_succ, ih]
    rcases le_or_lt m (t * c) with h | h
    · have h1 : min (t * c) m = m := min_eq_right h
      have h2 : min ((t + 1) * c) m = m := by
        have : m ≤ (t + 1) * c := le_trans h (by nlinarith)
        exact min_eq_right this
      have h3 : Finset.Ico (t * c) (min (t * c + c) m) = ∅ := by
        apply Finset.Ico_eq_empty
        intro hlt
        have : min (t * c + c) m ≤ t * c := le_trans (min_le_right _ _) h
        omega
      rw [h1, h2, h3, Finset.sum_empty, add_zero]
    · have h1 : min (t * c) m = t * c := min_eq_left (le_of_lt h)
      have h2 : t * c ≤ min (t * c + c) m := by
        apply le_min (by omega) (le_of_lt h)
      have h3 : min (t * c + c) m = min ((t + 1) * c) m := by
        have : t * c + c = (t + 1) * c := by ring
        rw [this]
      rw [h1, ← h3]
      exact Finset.sum_Ico_consecutive f (Nat.zero_le _) h2

lemma chunkN_covers (m t : ℕ) (ht : 1 ≤ t) : m ≤ t * chunkN m t := by
  unfold chunkN
  have hmod := Nat.div_add_mod (m + t - 1) t
  have hlt : (m + t - 1) % t < t := Nat.mod_lt _ (by omega)
  omega

/-- C3: for every pair of same-shaped matrices and every thread count
t ≥ 1, the chunked multithreaded RMSE of `rmse2d_multi` (chunk starts
`0, c, 2c, ...` with `c = ceil(m/t)`) has exactly the same value as the
single-threaded `rmse2d`, namely `sqrt((Σ_{i,j}(A_ij - B_ij)^2)/(m·n))`;
in particular the result is independent of the thread count.  (Float
arithmetic is modelled exactly; the same formula covers
`rmse2d_multi_float32`, which differs only in dtype.) -/
theorem rmse2d_multi_eq_rmse2d (A B : ℕ → ℕ → ℚ) (m n t : ℕ) (ht : 1 ≤ t) :
    multiSS A B m n t = totalSS A B m n ∧
    Real.sqrt ((multiSS A B m n t : ℝ) / (m * n)) =
      Real.sqrt ((totalSS A B m n : ℝ) / (m * n)) ∧
    (∀ u : ℕ, 1 ≤ u → multiSS A B m n t = multiSS A B m n u) := by
  have key : ∀ s : ℕ, 1 ≤ s → multiSS A B m n s = totalSS A B m n := by
    intro s hs
    unfold multiSS chunkSS totalSS
    rw [chunk_partition (rowSS A B n) (chunkN m s) m s]
    have hcov := chunkN_covers m s hs
    rw [min_eq_right hcov, Finset.range_eq_Ico]
  refine ⟨key t ht, ?_, ?_⟩
  · rw [key t ht]
  · intro u hu
    rw [key t ht, key u hu]

/-- Witness for C3 at concrete matrices (m = 3, n = 2, t = 2 against
u = 3 threads). -/
theorem rmse2d_multi_eq_rmse2d_witness :
    multiSS (fun i j => (i : ℚ) + j) (fun _ _ => 1) 3 2 2
      = totalSS (fun i j => (i : ℚ) + j) (fun _ _ => 1) 3 2 ∧
    multiSS (fun i j => (i : ℚ) + j) (fun _ _ => 1) 3 2 2
      = multiSS (fun i j => (i : ℚ) + j) (fun _ _ => 1) 3 2 3 := by
  have h := rmse2d_multi_eq_rmse2d (fun i j => (i : ℚ) + j) (fun _ _ => 1)
    3 2 2 (by decide)
  exact ⟨h.1, h.2.2 3 (by decide)⟩

/-- Exit modes of the PCAngsd iterative phase (covariance.py lines
252-279): break on the primary tolerance, break on the secondary
plateau criterion, or fall off the end of `range(2, M+2)`.  Reaching
the cap is an ordinary return, not an error: the function afterwards
rebuilds the covariance from the current `predF` and returns it. -/
inductive PCAExit where
  | primary : ℕ → PCAExit
  | secondary : ℕ → PCAExit
  | cap : PCAExit
deriving DecidableEq

/-- Embedding of the convergence control flow of the loop
`for iteration in range(2, M+2)` in `PCAngsd` (covariance.py lines
252-279).  The RMSE values produced by `rmse2d_multi_float32` at each
iteration are abstracted as the sequence `d`; `oldDiff` carries the
previous iteration's RMSE exactly as in the source (set when
`iteration == 2`, updated whenever the secondary criterion fails). -/
def pcaLoop (d : ℕ → ℚ) (tole : ℚ) : ℕ → ℕ → ℚ → PCAExit
  | 0, _, _ => PCAExit.cap
  | fuel + 1, iter, oldDiff =>
    if d iter < tole then PCAExit.primary iter
    else if iter = 2 then pcaLoop d tole fuel (iter + 1) (d iter)
    else if |d iter - oldDiff| ≤ 5e-6 then PCAExit.secondary iter
    else pcaLoop d tole fuel (iter + 1) (d iter)

/-- The full iterative phase: `M` iterations numbered 2 through M+1,
starting with an uninitialized `oldDiff` (the source only reads it once
`iteration > 2`, when it has been set). -/
def pcaRun (d : ℕ → ℚ) (tole : ℚ) (M : ℕ) : PCAExit := pcaLoop d tole M 2 0

lemma pcaLoop_spec (d : ℕ → ℚ) (tole : ℚ) :
    ∀ (fuel iter : ℕ) (old : ℚ), 2 ≤ iter → (2 < iter → old = d (iter - 1)) →
    (∀ i, pcaLoop d tole fuel iter old = PCAExit.primary i →
        d i < tole ∧ iter ≤ i ∧ i < iter + fuel) ∧
    (∀ i, pcaLoop d tole fuel iter old = PCAExit.secondary i →
        3 ≤ i ∧ tole ≤ d i ∧ |d i - d (i - 1)| ≤ 5e-6 ∧ iter ≤ i ∧
          i < iter + fuel) ∧
    ((∀ i, iter ≤ i → i < iter + fuel →
        tole ≤ d i ∧ (i = 2 ∨ 5e-6 < |d i - d (i - 1)|)) →
      pcaLoop d tole fuel iter old = PCAExit.cap) := by
  intro fuel
  induction fuel with
  | zero =>
    intro iter old hiter hold
    refine ⟨?_, ?_, ?_⟩
    · intro i h
      simp [pcaLoop] at h
    · intro i h
      simp [pcaLoop] at h
    · intro _
      simp [pcaLoop]
  | succ fuel ih =>
    intro iter old hiter hold
    by_cases h1 : d iter < tole
    · have hrun : pcaLoop d tole (fuel + 1) iter old = PCAExit.primary iter := by
        simp [pcaLoop, h1]
      refine ⟨?_, ?_, ?_⟩
      · intro i h
        rw [hrun] at h
        cases h
        exact ⟨h1, le_refl _, by omega⟩
      · intro i h
        rw [hrun] at h
        cases h
      · intro hall
        have := (hall iter (le_refl _) (by omega)).1
        linarith
    · by_cases h2 : iter = 2
      · subst h2
        have hrun : pcaLoop d tole (fuel + 1) 2 old
            = pcaLoop d tole fuel (2 + 1) (d 2) := by
          simp [pcaLoop, h1]
        have hih := ih (2 + 1) (d 2) (by omega)
          (fun _ => by simp)
        refine ⟨?_, ?_, ?_⟩
        · intro i h
          rw [hrun] at h
          obtain ⟨ha, hb, hc⟩ := hih.1 i h
          exact ⟨ha, by omega, by omega⟩
        · intro i h
          rw [hrun] at h
          obtain ⟨ha, hb, hc, hd2, he⟩ := hih.2.1 i h
          exact ⟨ha, hb, hc, by omega, by omega⟩
        · intro hall
          rw [hrun]
          exact hih.2.2 (fun i hge hlt => hall i (by omega) (by omega))
      · have h2' : 2 < iter := by omega
        have holdv : old = d (iter - 1) := hold h2'
        by_cases h3 : |d iter - old| ≤ 5e-6
        · have hrun : pcaLoop d tole (fuel + 1) iter old
              = PCAExit.secondary iter := by
            simp [pcaLoop, h1, h2, h3]
          refine ⟨?_, ?_, ?_⟩
          · intro i h
            rw [hrun] at h
            cases h
          · intro i h
            rw [hrun] at h
            cases h
            refine ⟨by omega, not_lt.mp h1, ?_, le_refl _, by omega⟩
            rw [← holdv]
            exact h3
          · intro hall
            have hcase := (hall iter (le_refl _) (by omega)).2
            rcases hcase with hcase | hcase
            · omega
            · rw [← holdv] at hcase
              linarith
        · have hrun : pcaLoop d tole (fuel + 1) iter old
              = pcaLoop d tole fuel (iter + 1) (d iter) := by
            simp [pcaLoop, h1, h2, h3]
          have hih := ih (iter + 1) (d iter) (by omega)
            (fun _ => by simp)
          refine ⟨?_, ?_, ?_⟩
          · intro i h
            rw [hrun] at h
            obtain ⟨ha, hb, hc⟩ := hih.1 i h
            exact ⟨ha, by omega, by omega⟩
          · intro i h
            rw [hrun] at h
            obtain ⟨ha, hb, hc, hd2, he⟩ := hih.2.1 i h
            exact ⟨ha, hb, hc, by omega, by omega⟩
          · intro hall
            rw [hrun]
            exact hih.2.2 (fun i hge hlt => hall i (by omega) (by omega))

/-- C4: the iterative phase of `PCAngsd` stops with the primary exit at
iteration i only when the RMSE `d i` is strictly below `M_tole`; it
stops with the secondary exit at i only when i > 2 (the check is
skipped at iteration 2) and the change in RMSE against the previous
iteration is within 5e-6 while the primary criterion failed; and when
neither criterion ever holds during iterations 2..M+1 the loop reaches
the cap, which is an ordinary (non-error) return of the current
estimate (constructor `PCAExit.cap`, after which the source rebuilds
and returns the covariance). -/
theorem pcaRun_stopping (d : ℕ → ℚ) (tole : ℚ) (M : ℕ) :
    (∀ i, pcaRun d tole M = PCAExit.primary i →
        d i < tole ∧ 2 ≤ i ∧ i ≤ M + 1) ∧
    (∀ i, pcaRun d tole M = PCAExit.secondary i →
        3 ≤ i ∧ i ≤ M + 1 ∧ tole ≤ d i ∧ |d i - d (i - 1)| ≤ 5e-6) ∧
    ((∀ i, 2 ≤ i → i ≤ M + 1 →
        tole ≤ d i ∧ (i = 2 ∨ 5e-6 < |d i - d (i - 1)|)) →
      pcaRun d tole M = PCAExit.cap) := by
  have h := pcaLoop_spec d tole M 2 0 (le_refl 2) (by omega)
  refine ⟨?_, ?_, ?_⟩
  · intro i hi
    obtain ⟨ha, hb, hc⟩ := h.1 i hi
    exact ⟨ha, hb, by omega⟩
  · intro i hi
    obtain ⟨ha, hb, hc, hd2, he⟩ := h.2.1 i hi
    exact ⟨ha, by omega, hb, hc⟩
  · intro hall
    exact h.2.2 (fun i hge hlt => hall i hge (by omega))

/-- Witness for C4: with a constant RMSE sequence equal to 1, tolerance
0 and cap M = 1, neither stopping criterion can fire and the loop ends
at the cap. -/
theorem pcaRun_stopping_witness : pcaRun (fun _ => 1) 0 1 = PCAExit.cap := by
  apply (pcaRun_stopping (fun _ => 1) 0 1).2.2
  intro i h1 h2
  have hi2 : i = 2 := by omega
  exact ⟨by norm_num, Or.inl hi2⟩

/-- Embedding of `partcov = C - np.dot(loadings[:, 0:(eig+1)],
loadings[:, 0:(eig+1)].T)` (covariance.py line 220): the covariance with
the rank-(e+1) reconstruction from the first e+1 loading columns
partialed out. -/
def partcovM {m nE : ℕ} (C : Fin m → Fin m → ℚ) (load : Fin m → Fin nE → ℚ)
    (e : ℕ) : Fin m → Fin m → ℚ :=
  fun i j =>
    C i j - ∑ k ∈ Finset.univ.filter (fun k : Fin nE => (k : ℕ) < e + 1),
      load i k * load j k

/-- Embedding of the MAP candidate score (covariance.py lines 221-228).
When the diagonal `d` of `partcov` has a NaN, zero or negative entry
(over the rationals: a nonpositive entry) the candidate scores 1;
otherwise the score is `(np.sum(pr**2) - m)/(m*(m-1))` where
`pr = diagflat(1/sqrt(d)) · partcov · diagflat(1/sqrt(d))`.  Only the
squares of `pr` enter the sum, and for a positive diagonal
`(pr i j)^2 = (partcov i j)^2 / (partcov i i * partcov j j)` exactly, so
the score is embedded through the squares and stays rational. -/
def mapScore {m nE : ℕ} (C : Fin m → Fin m → ℚ) (load : Fin m → Fin nE → ℚ)
    (e : ℕ) : ℚ :=
  if ∃ i, partcovM C load e i i ≤ 0 then 1
  else ((∑ i, ∑ j, partcovM C load e i j ^ 2 /
      (partcovM C load e i i * partcovM C load e j j)) - (m : ℚ)) /
    ((m : ℚ) * ((m : ℚ) - 1))

/-- Embedding of `np.argmin` restricted to the first k entries of a
score sequence: scan left to right, replacing the incumbent only on a
strictly smaller value, so the first minimizer is returned (NumPy
returns the first occurrence of the minimum). -/
def argminUpTo (f : ℕ → ℚ) : ℕ → ℕ
  | 0 => 0
  | k + 1 => if f k < f (argminUpTo f k) then k else argminUpTo f k

/-- Embedding of `e = max([1, np.argmin(mapTest) + 1])` (covariance.py
line 230). -/
def eSel (f : ℕ → ℚ) (nE : ℕ) : ℕ := max 1 (argminUpTo f nE + 1)

lemma argminUpTo_lt (f : ℕ → ℚ) : ∀ k, argminUpTo f (k + 1) < k + 1 := by
  intro k
  induction k with
  | zero => simp [argminUpTo]
  | succ k ih =>
    rw [argminUpTo]
    split
    · omega
    · omega

lemma argminUpTo_lt_of_pos (f : ℕ → ℚ) (k : ℕ) (hk : 1 ≤ k) :
    argminUpTo f k < k := by
  cases k with
  | zero => omega
  | succ k2 => exact argminUpTo_lt f k2

lemma argminUpTo_min (f : ℕ → ℚ) :
    ∀ k j, j < k → f (argminUpTo f k) ≤ f j := by
  intro k
  induction k with
  | zero => intro j h; omega
  | succ k ih =>
    intro j hj
    by_cases h : f k < f (argminUpTo f k)
    · rw [argminUpTo, if_pos h]
      rcases Nat.lt_succ_iff_lt_or_eq.mp hj with hj2 | hj2
      · exact le_of_lt (lt_of_lt_of_le h (ih j hj2))
      · subst hj2
        exact le_refl _
    · rw [argminUpTo, if_neg h]
      rcases Nat.lt_succ_iff_lt_or_eq.mp hj with hj2 | hj2
      · exact ih j hj2
      · subst hj2
        exact not_lt.mp h

lemma argminUpTo_strict (f : ℕ → ℚ) :
    ∀ k j, j < argminUpTo f k → f (argminUpTo f k) < f j := by
  intro k
  induction k with
  | zero => intro j h; simp [argminUpTo] at h
  | succ k ih =>
    intro j hj
    by_cases h : f k < f (argminUpTo f k)
    · rw [argminUpTo, if_pos h] at hj ⊢
      exact lt_of_lt_of_le h (argminUpTo_min f k j hj)
    · rw [argminUpTo, if_neg h] at hj ⊢
      exact ih j hj

/-- C5 counterexample: a non-degenerate candidate whose MAP score is 4,
outside [0,1], so 1.0 is not the worst possible score.  Concretely, with
m = 2, C = [[1,2],[2,1]] and zero loadings, candidate 0 has partial
covariance equal to C with strictly positive diagonal (not degenerate),
yet `(np.sum(pr**2) - m)/(m*(m-1)) = (10-2)/2 = 4 > 1`. -/
theorem mapScore_exceeds_one :
    (¬ ∃ i : Fin 2,
        partcovM ![![(1 : ℚ), 2], ![2, 1]]
          (fun (_ : Fin 2) (_ : Fin 1) => (0 : ℚ)) 0 i i ≤ 0) ∧
    mapScore ![![(1 : ℚ), 2], ![2, 1]]
        (fun (_ : Fin 2) (_ : Fin 1) => (0 : ℚ)) 0 = 4 ∧
    ¬ mapScore ![![(1 : ℚ), 2], ![2, 1]]
        (fun (_ : Fin 2) (_ : Fin 1) => (0 : ℚ)) 0 ≤ 1 := by
  have hpc : ∀ i j : Fin 2,
      partcovM ![![(1 : ℚ), 2], ![2, 1]]
        (fun (_ : Fin 2) (_ : Fin 1) => (0 : ℚ)) 0 i j
      = ![![(1 : ℚ), 2], ![2, 1]] i j := by
    intro i j
    simp [partcovM]
  have hnd : ¬ ∃ i : Fin 2,
      partcovM ![![(1 : ℚ), 2], ![2, 1]]
        (fun (_ : Fin 2) (_ : Fin 1) => (0 : ℚ)) 0 i i ≤ 0 := by
    rintro ⟨i, hi⟩
    rw [hpc i i] at hi
    fin_cases i <;> norm_num at hi
  have hval : mapScore ![![(1 : ℚ), 2], ![2, 1]]
      (fun (_ : Fin 2) (_ : Fin 1) => (0 : ℚ)) 0 = 4 := by
    rw [mapScore, if_neg hnd]
    simp only [Fin.sum_univ_two, hpc]
    norm_num [Matrix.cons_val_zero, Matrix.cons_val_one, Matrix.head_cons]
  refine ⟨hnd, hval, ?_⟩
  rw [hval]
  norm_num

/-- C5 (amended): every degenerate candidate (nonpositive — in float
terms NaN, zero or negative — diagonal entry of the partial covariance)
receives the score exactly 1.0; non-degenerate scores are nonnegative
but may exceed 1.0 (see the counterexample), so 1.0 is not a worst-case
bound; the retained component count is `argmin + 1`, where the argmin is
the smallest index among the minimizers of the score sequence (so e is
the smallest k ≥ 1 among the minimizers of the MAP statistic); and a
degenerate candidate is never the argmin whenever some candidate scores
strictly below 1. -/
theorem mapTest_selection {m nE : ℕ} (C : Fin m → Fin m → ℚ)
    (load : Fin m → Fin nE → ℚ) :
    (∀ e, (∃ i, partcovM C load e i i ≤ 0) → mapScore C load e = 1) ∧
    (2 ≤ m → ∀ e, (¬ ∃ i, partcovM C load e i i ≤ 0) →
      0 ≤ mapScore C load e) ∧
    (1 ≤ nE →
      eSel (fun e => mapScore C load e) nE
          = argminUpTo (fun e => mapScore C load e) nE + 1 ∧
      argminUpTo (fun e => mapScore C load e) nE < nE ∧
      (∀ j, j < nE →
        mapScore C load (argminUpTo (fun e => mapScore C load e) nE)
          ≤ mapScore C load j) ∧
      (∀ j, j < argminUpTo (fun e => mapScore C load e) nE →
        mapScore C load (argminUpTo (fun e => mapScore C load e) nE)
          < mapScore C load j)) ∧
    ((∃ j, j < nE ∧ mapScore C load j < 1) →
      ∀ i, i < nE → (∃ l, partcovM C load i l l ≤ 0) →
        argminUpTo (fun e => mapScore C load e) nE ≠ i) := by
  refine ⟨?_, ?_, ?_, ?_⟩
  · intro e hdeg
    rw [mapScore, if_pos hdeg]
  · intro hm e hdeg
    rw [mapScore, if_neg hdeg]
    push_neg at hdeg
    have hpos : ∀ i, 0 < partcovM C load e i i := hdeg
    have hterm : ∀ i j : Fin m,
        0 ≤ partcovM C load e i j ^ 2 /
          (partcovM C load e i i * partcovM C load e j j) := by
      intro i j
      exact div_nonneg (sq_nonneg _)
        (le_of_lt (mul_pos (hpos i) (hpos j)))
    have hdiag : ∀ i : Fin m,
        partcovM C load e i i ^ 2 /
          (partcovM C load e i i * partcovM C load e i i) = 1 := by
      intro i
      rw [sq]
      exact div_self (ne_of_gt (mul_pos (hpos i) (hpos i)))
    have hrow : ∀ i : Fin m,
        (1 : ℚ) ≤ ∑ j, partcovM C load e i j ^ 2 /
          (partcovM C load e i i * partcovM C load e j j) := by
      intro i
      rw [← hdiag i]
      exact Finset.single_le_sum (fun j _ => hterm i j) (Finset.mem_univ i)
    have hsum : (m : ℚ) ≤ ∑ i : Fin m, ∑ j, partcovM C load e i j ^ 2 /
        (partcovM C load e i i * partcovM C load e j j) := by
      calc (m : ℚ) = ∑ _i : Fin m, (1 : ℚ) := by simp
        _ ≤ _ := Finset.sum_le_sum (fun i _ => hrow i)
    have hden : 0 < (m : ℚ) * ((m : ℚ) - 1) := by
      have h2 : (2 : ℚ) ≤ (m : ℚ) := by exact_mod_cast hm
      nlinarith
    exact div_nonneg (by linarith) (le_of_lt hden)
  · intro hnE
    have hlt : argminUpTo (fun e => mapScore C load e) nE < nE :=
      argminUpTo_lt_of_pos (fun e => mapScore C load e) nE hnE
    have hsel : eSel (fun e => mapScore C load e) nE
        = argminUpTo (fun e => mapScore C load e) nE + 1 := by
      rw [eSel]
      omega
    refine ⟨hsel, hlt, ?_, ?_⟩
    · intro j hj
      exact argminUpTo_min (fun e => mapScore C load e) nE j hj
    · intro j hj
      exact argminUpTo_strict (fun e => mapScore C load e) nE j hj
  · rintro ⟨j, hjlt, hjsc⟩ i hilt hideg heq
    have hscore1 : mapScore C load i = 1 := by
      rw [mapScore, if_pos hideg]
    have hmin : mapScore C load (argminUpTo (fun e => mapScore C load e) nE)
        ≤ mapScore C load j :=
      argminUpTo_min (fun e => mapScore C load e) nE j hjlt
    rw [heq, hscore1] at hmin
    linarith

/-- Witness for the amended C5 at a concrete non-degenerate input
(m = 2, one candidate, C the all-ones matrix, zero loadings). -/
theorem mapTest_selection_witness :
    0 ≤ mapScore (fun (_ _ : Fin 2) => (1 : ℚ))
        (fun (_ : Fin 2) (_ : Fin 1) => (0 : ℚ)) 0 ∧
    eSel (fun e => mapScore (fun (_ _ : Fin 2) => (1 : ℚ))
        (fun (_ : Fin 2) (_ : Fin 1) => (0 : ℚ)) e) 1
      = argminUpTo (fun e => mapScore (fun (_ _ : Fin 2) => (1 : ℚ))
        (fun (_ : Fin 2) (_ : Fin 1) => (0 : ℚ)) e) 1 + 1 := by
  have h := mapTest_selection (fun (_ _ : Fin 2) => (1 : ℚ))
    (fun (_ : Fin 2) (_ : Fin 1) => (0 : ℚ))
  have hnd : ¬ ∃ i : Fin 2,
      partcovM (fun (_ _ : Fin 2) => (1 : ℚ))
        (fun (_ : Fin 2) (_ : Fin 1) => (0 : ℚ)) 0 i i ≤ 0 := by
    rintro ⟨i, hi⟩
    norm_num [partcovM] at hi
  exact ⟨h.2.1 (by norm_num) 0 hnd, (h.2.2.1 (by norm_num)).1⟩

/-- Embedding of `X = X[:, shuffleX]` (admixture.py line 70): column j
of the shuffled matrix is column `shuffleX[j]` of the original.
`np.random.permutation(n)` is an external seeded RNG call whose output
is a bijection of site indices, modelled as `σ : Equiv.Perm (Fin n)`. -/
def shuffleCols {m n : ℕ} (X : Fin m → Fin n → ℚ) (σ : Equiv.Perm (Fin n)) :
    Fin m → Fin n → ℚ :=
  fun i j => X i (σ j)

/-- Embedding of `np.argsort(shuffleX)` applied to a permutation vector
(admixture.py lines 178-179): for a bijective index vector p, argsort
returns the vector q with p[q[i]] = i, i.e. the inverse permutation.
The characterizing identities are proved in the C6 theorem below. -/
def argsortPerm {n : ℕ} (σ : Equiv.Perm (Fin n)) : Equiv.Perm (Fin n) :=
  σ.symm

/-- Embedding of `F = F[np.argsort(shuffleX)]` (admixture.py line 178):
row i of the returned factor matrix is row `argsort(shuffleX)[i]` of the
factor matrix estimated on the shuffled data. -/
def permRows {n K : ℕ} (F : Fin n → Fin K → ℚ) (σ : Equiv.Perm (Fin n)) :
    Fin n → Fin K → ℚ :=
  fun j => F (σ j)

/-- C6: the initial column permutation of `admixNMF` composed with the
argsort-based reshuffle is the identity on site indices: unshuffling the
shuffled input recovers the input exactly, the argsort permutation is
the two-sided inverse of the shuffle, and row i of the returned factor
matrix `F[argsort(shuffleX)]` is the row that the NMF estimated for the
shuffled column holding original site i. -/
theorem admixNMF_reshuffle {m n K : ℕ} (X : Fin m → Fin n → ℚ)
    (σ : Equiv.Perm (Fin n)) (estF : Fin n → Fin K → ℚ) :
    shuffleCols (shuffleCols X σ) (argsortPerm σ) = X ∧
    (∀ j, σ (argsortPerm σ j) = j ∧ argsortPerm σ (σ j) = j) ∧
    (∀ i r, shuffleCols X σ r (argsortPerm σ i) = X r i) ∧
    (∀ i, permRows estF (argsortPerm σ) i = estF (σ.symm i)) := by
  refine ⟨?_, ?_, ?_, ?_⟩
  · funext i j
    simp [shuffleCols, argsortPerm]
  · intro j
    exact ⟨σ.apply_symm_apply j, σ.symm_apply_apply j⟩
  · intro i r
    simp [shuffleCols, argsortPerm]
  · intro i
    rfl

/-- Embedding of `m /= 3` on the likelihood-matrix row count, as
performed with no preceding validity check by `PCAngsd` (covariance.py
lines 184-185), `callGeno` (callGeno.py lines 63-64) and every jitted
kernel: Python 2 integer floor division. -/
def mFromRows (rows : ℕ) : ℕ := rows / 3

/-- C7 evidence: a likelihood matrix with 7 rows (not divisible by 3) is
not rejected anywhere; the individual count is silently floor-truncated
to 2 and the entry points proceed (the embedded kernels are total
functions of `mFromRows rows`), contradicting the required
precondition-violation abort. -/
theorem mFromRows_truncates :
    mFromRows 7 = 2 ∧ 7 % 3 ≠ 0 ∧ mFromRows 7 * 3 ≠ 7 := by
  refine ⟨rfl, by decide, by decide⟩

/-- Embedding of `np.dot(Q.T, Q)` (admixture.py line 76), the matrix
inverted to initialize F. -/
def QtQ (m K : ℕ) (Q : Fin m → Fin K → ℚ) : Matrix (Fin K) (Fin K) ℚ :=
  Matrix.of fun a b => ∑ i, Q i a * Q i b

/-- C9 evidence: `admixNMF` performs no precondition check on m or n;
with m = 0 individuals it reaches `np.linalg.inv(np.dot(Q.T, Q))` where
`Q.T Q` is the K×K zero matrix, whose determinant is 0 and which is not
invertible — the call dies inside the linear-algebra library (a
LinAlgError), not with the precondition violation that the claim and
spec require, and with n = 0 the NMF loop runs on empty batches and
returns an empty F without any check. -/
theorem admixNMF_no_empty_check (K : ℕ) (hK : 1 ≤ K)
    (Q : Fin 0 → Fin K → ℚ) :
    QtQ 0 K Q = 0 ∧ Matrix.det (QtQ 0 K Q) = 0 ∧ ¬ IsUnit (QtQ 0 K Q) := by
  have hzero : QtQ 0 K Q = 0 := by
    funext a b
    simp [QtQ]
  have hK2 : Nonempty (Fin K) := ⟨⟨0, hK⟩⟩
  have hdet : Matrix.det (QtQ 0 K Q) = 0 := by
    rw [hzero]
    exact Matrix.det_zero hK2
  refine ⟨hzero, hdet, ?_⟩
  intro hunit
  have := (Matrix.isUnit_iff_isUnit_det _).mp hunit
  rw [hdet] at this
  exact (by norm_num : ¬ IsUnit (0 : ℚ)) this

/-- Witness for the C9 evidence theorem at K = 1. -/
theorem admixNMF_no_empty_check_witness :
    QtQ 0 1 (fun i _ => i.elim0) = 0 ∧
    Matrix.det (QtQ 0 1 (fun i _ => i.elim0)) = 0 ∧
    ¬ IsUnit (QtQ 0 1 (fun i _ => i.elim0)) :=
  admixNMF_no_empty_check 1 (by decide) (fun i _ => i.elim0)

/-- Posterior genotype probabilities under the Hardy-Weinberg prior,
shared by `covFumagalli` (covariance.py lines 49-53, prior `f[s]`)
and `covPCAngsd` (lines 97-101, prior `indF[ind, s]`): the three
likelihoods are weighted by `(1-p)^2, 2p(1-p), p^2` and normalized by
their sum. -/
def postHW (L : Fin 3 → ℚ) (p : ℚ) : Fin 3 → ℚ :=
  fun g =>
    ![L 0 * (1 - p) * (1 - p), L 1 * 2 * p * (1 - p), L 2 * p * p] g /
      (L 0 * (1 - p) * (1 - p) + L 1 * 2 * p * (1 - p) + L 2 * p * p)

/-- The per-site divisor `2*f[s]*(1 - f[s])` of the covariance-diagonal
accumulation (covariance.py lines 63 and 111). -/
def diagDen (fs : ℚ) : ℚ := 2 * fs * (1 - fs)

/-- The per-site numerator `temp = Σ_g (g - 2f)^2 · probMatrix[g,s]`
(covariance.py lines 59-62 / 107-110). -/
def siteVar (post : Fin 3 → ℚ) (fs : ℚ) : ℚ :=
  ∑ g : Fin 3, (((g : ℕ) : ℚ) - 2 * fs) * (((g : ℕ) : ℚ) - 2 * fs) * post g

/-- Embedding of the `diagC[ind]` accumulation of `covFumagalli`
(covariance.py lines 56-64).  The source loops over every site with no
mask or skip; a site with `2f(1-f) = 0` makes the float division
produce a non-finite value, modelled by `none`. -/
def diagCFum {n : ℕ} (likeRow : Fin n → Fin 3 → ℚ) (f : Fin n → ℚ) :
    Option ℚ :=
  if ∀ s, diagDen (f s) ≠ 0 then
    some ((∑ s, siteVar (postHW (likeRow s) (f s)) (f s) / diagDen (f s)) / n)
  else none

/-- Embedding of the `diagC[ind]` accumulation of `covPCAngsd`
(covariance.py lines 104-112): identical except that the posterior uses
the individual allele frequency while the divisor still uses the
population frequency `f`. -/
def diagCPCA {n : ℕ} (likeRow : Fin n → Fin 3 → ℚ)
    (indFRow : Fin n → ℚ) (f : Fin n → ℚ) : Option ℚ :=
  if ∀ s, diagDen (f s) ≠ 0 then
    some ((∑ s, siteVar (postHW (likeRow s) (indFRow s)) (f s) /
      diagDen (f s)) / n)
  else none

/-- C8 counterexample: a single site with population frequency f = 0 is
not masked or skipped by either estimator — the accumulation divides by
`2·0·(1-0) = 0` and the diagC value is non-finite (`none`), refuting
the claimed guard. -/
theorem diagC_divides_by_zero :
    diagCFum (fun (_ : Fin 1) (_ : Fin 3) => 1) (fun _ => 0) = none ∧
    diagCPCA (fun (_ : Fin 1) (_ : Fin 3) => 1) (fun _ => 1/2)
      (fun _ => 0) = none := by
  have hden : ¬ ∀ s : Fin 1, diagDen ((fun _ : Fin 1 => (0 : ℚ)) s) ≠ 0 := by
    intro hall
    exact hall 0 (by norm_num [diagDen])
  constructor
  · rw [diagCFum, if_neg hden]
  · rw [diagCPCA, if_neg hden]

/-- C8 (amended): the source contains no mask or skip for sites with
`f·(1-f) = 0`; whenever such a site is present the per-individual diagC
accumulation of `covFumagalli` and `covPCAngsd` performs a division by
zero (non-finite result, `none`), and only when every site satisfies
`f·(1-f) ≠ 0` is the accumulation well-defined. -/
theorem diagC_guard_characterization {n : ℕ}
    (likeRow : Fin n → Fin 3 → ℚ) (indFRow f : Fin n → ℚ) :
    ((∀ s, diagDen (f s) ≠ 0) →
      (diagCFum likeRow f).isSome ∧ (diagCPCA likeRow indFRow f).isSome) ∧
    ((∃ s, diagDen (f s) = 0) →
      diagCFum likeRow f = none ∧ diagCPCA likeRow indFRow f = none) := by
  constructor
  · intro hall
    rw [diagCFum, if_pos hall, diagCPCA, if_pos hall]
    exact ⟨rfl, rfl⟩
  · rintro ⟨s, hs⟩
    have hneg : ¬ ∀ s2, diagDen (f s2) ≠ 0 := fun hall => hall s hs
    rw [diagCFum, if_neg hneg, diagCPCA, if_neg hneg]
    exact ⟨rfl, rfl⟩

/-- Witness for the amended C8 at a concrete one-site input with
f = 1/2 (both diagC accumulations defined). -/
theorem diagC_guard_characterization_witness :
    (diagCFum (fun (_ : Fin 1) (_ : Fin 3) => 1)
      (fun _ => 1/2)).isSome ∧
    (diagCPCA (fun (_ : Fin 1) (_ : Fin 3) => 1) (fun _ => 1/2)
      (fun _ => 1/2)).isSome := by
  exact (diagC_guard_characterization (fun (_ : Fin 1) (_ : Fin 3) => 1)
    (fun _ => 1/2) (fun _ => 1/2)).1
    (fun s => by norm_num [diagDen])

/-- The three unnormalized posterior weights of `gProbGeno`
(callGeno.py lines 24-26), using the Hardy-Weinberg prior from the
individual allele frequency `indF[ind, s]`; the likelihood matrix is
indexed by raw row offsets `3*ind + g` as in the source. -/
def gWeights (like : ℕ → ℕ → ℚ) (indF : ℕ → ℕ → ℚ) (ind s : ℕ) :
    Fin 3 → ℚ :=
  ![like (3 * ind) s * ((1 - indF ind s) * (1 - indF ind s)),
    like (3 * ind + 1) s * (2 * indF ind s * (1 - indF ind s)),
    like (3 * ind + 2) s * (indF ind s * indF ind s)]

/-- The three unnormalized posterior weights of `gProbGenoInbreeding`
(callGeno.py lines 47-49), with the per-individual inbreeding
coefficient `F[ind]`.  The source's homozygous-alternate term reads
`indF[ind, S]` (the chunk-start column) rather than `indF[ind, s]`;
this is embedded faithfully via the extra argument `S`. -/
def gWeightsInb (like : ℕ → ℕ → ℚ) (indF : ℕ → ℕ → ℚ) (F : ℕ → ℚ)
    (ind s S : ℕ) : Fin 3 → ℚ :=
  ![like (3 * ind) s * ((1 - indF ind s) * (1 - indF ind s) +
      indF ind s * (1 - indF ind s) * F ind),
    like (3 * ind + 1) s * (2 * indF ind s * (1 - indF ind s) *
      (1 - F ind)),
    like (3 * ind + 2) s * (indF ind s * indF ind s +
      indF ind S * (1 - indF ind S) * F ind)]

/-- Column normalization `probMatrix /= np.sum(probMatrix, axis=0)`
(callGeno.py lines 27 and 50). -/
def normalize3 (w : Fin 3 → ℚ) : Fin 3 → ℚ :=
  fun g => w g / (w 0 + w 1 + w 2)

/-- Embedding of `np.argmax(probMatrix[:, s])` over the three genotype
probabilities: the first index attaining the maximum, as NumPy
returns. -/
def argmax3 (p : Fin 3 → ℚ) : Fin 3 :=
  if p 1 ≤ p 0 then (if p 2 ≤ p 0 then 0 else 2)
  else (if p 2 ≤ p 1 then 1 else 2)

/-- The genotype written into `G[ind, s]` (callGeno.py lines 30-35 and
53-58): the argmax genotype, or the sentinel 9 when its posterior
probability is below delta. -/
def callEntry (p : Fin 3 → ℚ) (delta : ℚ) : ℕ :=
  if p (argmax3 p) < delta then 9 else (argmax3 p : ℕ)

/-- The start of the worker chunk owning row `ind` when the row range is
cut into chunks of size c (chunk starts 0, c, 2c, ... as built at
callGeno.py lines 65-66). -/
def chunkStart (c ind : ℕ) : ℕ := c * (ind / c)

/-- The genotype called for (ind, s) by `callGeno` without an inbreeding
vector (dispatch to `gProbGeno`, callGeno.py lines 79-85). -/
def callGenoEntry (like indF : ℕ → ℕ → ℚ) (delta : ℚ) (ind s : ℕ) : ℕ :=
  callEntry (normalize3 (gWeights like indF ind s)) delta

/-- The genotype called for (ind, s) by `callGeno` with an inbreeding
vector (dispatch to `gProbGenoInbreeding`, callGeno.py lines 72-78);
the chunk start passed to the worker owning row ind is
`chunkStart c ind`. -/
def callGenoEntryInb (like indF : ℕ → ℕ → ℚ) (F : ℕ → ℚ) (delta : ℚ)
    (c ind s : ℕ) : ℕ :=
  callEntry (normalize3 (gWeightsInb like indF F ind s (chunkStart c ind)))
    delta

/-- C10: for every likelihood matrix, individual allele-frequency
matrix, threshold delta and chunk decomposition, `callGeno` with an
all-zero inbreeding vector produces exactly the same genotype matrix as
`callGeno` with no inbreeding vector: with `F[ind] = 0` every
inbreeding-adjusted posterior weight of `gProbGenoInbreeding` (including
the term carrying the source's `indF[ind, S]` index slip, which is
multiplied by `F[ind]`) collapses to the corresponding Hardy-Weinberg
weight of `gProbGeno`. -/
theorem callGeno_zero_inbreeding (like indF : ℕ → ℕ → ℚ) (delta : ℚ)
    (c : ℕ) :
    (fun ind s => callGenoEntryInb like indF (fun _ => 0) delta c ind s)
      = fun ind s => callGenoEntry like indF delta ind s := by
  funext ind s
  have hw : gWeightsInb like indF (fun _ => 0) ind s (chunkStart c ind)
      = gWeights like indF ind s := by
    funext g
    fin_cases g <;> simp [gWeightsInb, gWeights]
  rw [callGenoEntryInb, hw]
  rfl

end PCAngsd
